import Mathlib

/-!
Verification of `congressionalrecord/process.py` (ahoho/congressional-record).

The Python module is shallowly embedded below.  Python strings are Lean
`String`s (lists of characters); Python string comparison is lexicographic
by code point, embedded as `strLe`.  Python dict `.get` with a default of
`None` is `Option`.  Fallible operations (`KeyError`, `IndexError`,
`AssertionError`, `AttributeError`) are embedded with `Except PErr`.
-/

namespace CongRec

/-- Lexicographic comparison of character lists by code point, matching
Python string `<=` (a string is `<=` another iff it is a prefix of it or its
first differing character is smaller). -/
def lexLe : List Char → List Char → Bool
  | [], _ => true
  | _ :: _, [] => false
  | a :: as, b :: bs => if a = b then lexLe as bs else decide (a < b)

/-- Python `s <= t` on strings. -/
def strLe (a b : String) : Bool := lexLe a.data b.data

/-- Equality on `Except` results is decidable; needed to evaluate the
embedded functions on concrete inputs. -/
instance {e a : Type} [DecidableEq e] [DecidableEq a] : DecidableEq (Except e a) := fun
  | .error x, .error y =>
    match decEq x y with
    | isTrue h => isTrue (h ▸ rfl)
    | isFalse h => isFalse fun hh => h (Except.error.inj hh)
  | .error _, .ok _ => isFalse fun hh => Except.noConfusion hh
  | .ok _, .error _ => isFalse fun hh => Except.noConfusion hh
  | .ok x, .ok y =>
    match decEq x y with
    | isTrue h => isTrue (h ▸ rfl)
    | isFalse h => isFalse fun hh => h (Except.ok.inj hh)

/-- A legislative term, embedding the Python dict with keys `"start"`,
`"end"`, `"state"` and optional `"party"`, `"caucus"` (read with `.get`,
hence `Option`).  `end` is a Lean keyword, so the field is `end_`. -/
structure Term where
  start : String
  end_ : String
  state : String
  party : Option String
  caucus : Option String
  deriving DecidableEq, Repr

/-- `term["start"] <= date <= term["end"]` from `filter_terms`. -/
def termContains (t : Term) (date : String) : Bool :=
  strLe t.start date && strLe date t.end_

/-- Embedding of `filter_terms(date, terms)` (process.py lines 54-74).
The Python loop over `reversed(terms)` returning the first term whose
interval contains `date` is `terms.reverse.find?`.  The fallback
`terms[-1]` is `getLast?`; on an empty list Python raises `IndexError`,
embedded as `none`.  The `Bool` in the result records whether the
`logging.warning` fallback branch was taken. -/
def filter_terms (date : String) (terms : List Term) : Option (Term × Bool) :=
  match terms.reverse.find? (fun t => termContains t date) with
  | some t => some (t, false)
  | none => terms.getLast?.map (fun t => (t, true))

/-- The whitespace characters matched by the regex `\s` in
`re.sub("\s+", " ", text)` (ASCII range; the Unicode ones behave alike). -/
def isPySpace (c : Char) : Bool :=
  c = ' ' || c = '\t' || c = '\n' || c = '\x0d' || c = '\x0b' || c = '\x0c'

/-- Embedding of `re.sub("\s+", " ", text)` (process.py line 165): every
maximal run of whitespace characters is replaced by a single space. -/
def collapseWs : List Char → List Char
  | [] => []
  | [c] => if isPySpace c then [' '] else [c]
  | c :: d :: rest =>
    if isPySpace c && isPySpace d then collapseWs (d :: rest)
    else (if isPySpace c then ' ' else c) :: collapseWs (d :: rest)

/-- Characters stripped by `.lstrip(". ")` (process.py line 147). -/
def isDotSpace (c : Char) : Bool := c = '.' || c = ' '

/-- Embedding of `text.lstrip(". ")`: drop leading periods and spaces. -/
def lstripDotSpace (s : List Char) : List Char := s.dropWhile isDotSpace

/-- Worker for `str.replace(old, "")` with a non-empty pattern `p :: pat`:
scan left to right; at each position, if the pattern is a prefix, drop it
and continue after it, else keep the character.  The `Nat` argument is
fuel, always called with at least the length of the list. -/
def replaceAllAux (p : Char) (pat : List Char) : Nat → List Char → List Char
  | 0, _ => []
  | _ + 1, [] => []
  | fuel + 1, c :: cs =>
    if (p :: pat).isPrefixOf (c :: cs) then
      replaceAllAux p pat fuel (cs.drop pat.length)
    else
      c :: replaceAllAux p pat fuel cs

/-- Embedding of Python `s.replace(name, "")` (process.py line 147): remove
every left-to-right non-overlapping occurrence of `name`.  Python returns
`s` unchanged when both the pattern and the replacement are empty. -/
def replaceAll (name s : List Char) : List Char :=
  match name with
  | [] => s
  | p :: pat => replaceAllAux p pat s.length s

/-- The full text normalization applied to an emitted speech item:
`re.sub("\s+", " ", speech["text"].replace(speech["speaker"], "").lstrip(". "))`
(process.py lines 147 and 165). -/
def normalize (speaker text : String) : String :=
  ⟨collapseWs (lstripDotSpace (replaceAll speaker.data text.data))⟩

/-- The output-text invariant: every whitespace character is a single
space not followed by further whitespace. -/
def wsCollapsed : List Char → Bool
  | [] => true
  | [c] => !isPySpace c || c = ' '
  | c :: d :: rest =>
    (!isPySpace c || (c = ' ' && !isPySpace d)) && wsCollapsed (d :: rest)

/-- The `PROCEDURAL_TITLES` constant (process.py lines 15-32). -/
def PROCEDURAL_TITLES : List String := [
  "APPOINTMENT OF ACTING PRESIDENT PRO TEMPORE",
  "HOUR OF MEETING ON TOMORROW",
  "ADJOURNMENT",
  "PLEDGE OF ALLEGIANCE",
  "THE JOURNAL",
  "EXECUTIVE REPORTS OF COMMITTEES",
  "UNANIMOUS CONSENT AGREEMENT--EXECUTIVE CALENDAR",
  "ADJOURNMENT UNTIL 9:30 A.M. TOMORROW",
  "APPOINTMENT",
  "AUTHORITY FOR COMMITTEES TO MEET",
  "PROGRAM",
  "EXECUTIVE REPORTS OF COMMITTEE",
  "PRIVILEGES OF THE FLOOR",
  "APPOINTMENTS",
  "GENERAL LEAVE",
  "ADJOURNMENT UNTIL 10 A.M. TOMORROW"]

/-- The `MONTH_MAP` constant (process.py lines 35-38): full English month
name to zero-padded month number; a missing key raises `KeyError`. -/
def MONTH_MAP : String → Option String
  | "January" => some "01"
  | "February" => some "02"
  | "March" => some "03"
  | "April" => some "04"
  | "May" => some "05"
  | "June" => some "06"
  | "July" => some "07"
  | "August" => some "08"
  | "September" => some "09"
  | "October" => some "10"
  | "November" => some "11"
  | "December" => some "12"
  | _ => none

/-- The failure modes of the embedded code: `KeyError` on `MONTH_MAP`,
the failed `assert` on the date length (the spec's `InvalidDateComponents`),
`KeyError` on `legislator_data[speaker_id]` (the spec's `UnknownSpeaker`),
`IndexError` on `terms[-1]` with an empty term list, and `AttributeError`
on `None.append`. -/
inductive PErr where
  | monthKeyError
  | invalidDateComponents
  | unknownSpeaker
  | emptyTermsError
  | attributeError
  deriving DecidableEq, Repr

/-- The `header` object of a speech file.  `year` and `day` are the values
interpolated at process.py lines 132-136 (`day` goes through `int`). -/
structure Header where
  year : Nat
  month : String
  day : Nat
  chamber : String
  deriving DecidableEq, Repr

/-- One entry of a speech file's `content` list. -/
structure SpeechItem where
  kind : String
  speaker : String
  speaker_bioguide : String
  itemno : Nat
  text : String
  deriving DecidableEq, Repr

/-- One raw speech file, as parsed from JSON. -/
structure SpeechFile where
  id : String
  title : String
  header : Header
  content : List SpeechItem
  deriving DecidableEq, Repr

/-- One value of the `legislator_data` mapping
(built by `process_legislator_data`, process.py lines 87-97). -/
structure Legislator where
  first_name : String
  last_name : String
  gender : String
  terms : List Term
  deriving DecidableEq, Repr

/-- The flattened output record `clean_data` (process.py lines 159-176). -/
structure Record where
  id : String
  source_file : String
  title : String
  date : String
  text : String
  chamber : String
  speaker_id : String
  party : Option String
  first_name : String
  last_name : String
  gender : String
  state : String
  deriving DecidableEq, Repr

/-- Zero-padding `f"{n:02}"` for a natural number. -/
def pad2 (n : Nat) : String := if n < 10 then "0" ++ toString n else toString n

/-- Date derivation of process.py lines 132-137: build
`"{year}-{month}-{day:02}"` through `MONTH_MAP` and assert the result has
exactly 10 characters. -/
def mkDate (h : Header) : Except PErr String :=
  match MONTH_MAP h.month with
  | none => .error .monthKeyError
  | some m =>
    let date := toString h.year ++ "-" ++ m ++ "-" ++ pad2 h.day
    if date.length = 10 then .ok date else .error .invalidDateComponents

/-- `party in ["Republican", "Democrat"]` on an optional value. -/
def isGopDem (p : Option String) : Bool :=
  p = some "Republican" || p = some "Democrat"

/-- Party resolution of process.py lines 153-157: start from
`term.get("party")`; under `restrict_to_gop_dem`, replace a non-GOP/Dem
party by `term.get("caucus")` and drop the item (`none`) if that is not
GOP/Dem either. -/
def resolveParty (restrict_to_gop_dem : Bool) (t : Term) : Option (Option String) :=
  if restrict_to_gop_dem && !isGopDem t.party then
    if !isGopDem t.caucus then none else some t.caucus
  else some t.party

/-- The item filter at process.py lines 141-145: kind is `"speech"` and
the bioguide id is neither the literal string `"None"` nor falsy (empty). -/
def itemQualifies (sp : SpeechItem) : Bool :=
  sp.kind = "speech" && sp.speaker_bioguide ≠ "None" && sp.speaker_bioguide ≠ ""

/-- Building `clean_data` (process.py lines 159-176) for one speech item. -/
def mkRecord (path : String) (f : SpeechFile) (date : String) (sp : SpeechItem)
    (leg : Legislator) (term : Term) (party : Option String) : Record :=
  { id := f.id ++ "_" ++ toString sp.itemno
    source_file := path
    title := f.title
    date := date
    text := normalize sp.speaker sp.text
    chamber := f.header.chamber
    speaker_id := sp.speaker_bioguide
    party := party
    first_name := leg.first_name
    last_name := leg.last_name
    gender := leg.gender
    state := term.state }

/-- The inner loop over `data["content"]` (process.py lines 140-176),
yielding the records emitted for one file in item order.  Failures are the
`KeyError` on the legislator lookup and the `IndexError` inside
`filter_terms`; an item dropped by the party restriction just continues. -/
def processItems (legislator_data : String → Option Legislator)
    (restrict_to_gop_dem : Bool) (path : String) (f : SpeechFile)
    (date : String) : List SpeechItem → Except PErr (List Record)
  | [] => .ok []
  | sp :: rest =>
    if itemQualifies sp then
      match legislator_data sp.speaker_bioguide with
      | none => .error .unknownSpeaker
      | some leg =>
        match filter_terms date leg.terms with
        | none => .error .emptyTermsError
        | some (term, _warned) =>
          match resolveParty restrict_to_gop_dem term with
          | none => processItems legislator_data restrict_to_gop_dem path f date rest
          | some party =>
            match processItems legislator_data restrict_to_gop_dem path f date rest with
            | .error e => .error e
            | .ok recs => .ok (mkRecord path f date sp leg term party :: recs)
    else processItems legislator_data restrict_to_gop_dem path f date rest

/-- The per-file body of the main loop (process.py lines 126-176): the
procedural-title check runs first and skips the whole file; only then is
the session date derived and validated. -/
def processFile (legislator_data : String → Option Legislator)
    (remove_procedural restrict_to_gop_dem : Bool) (path : String)
    (f : SpeechFile) : Except PErr (List Record) :=
  if remove_procedural && PROCEDURAL_TITLES.contains f.title then .ok []
  else
    match mkDate f.header with
    | .error e => .error e
    | .ok date => processItems legislator_data restrict_to_gop_dem path f date f.content

/-- The mutable state of one `process_and_speech_data` run: the contents
of the destination file (one serialized record per line, modelled as the
list of records whose JSON forms the lines) and the `speeches` variable,
which is a Python list or `None` (process.py line 124). -/
structure RunState where
  outLines : List Record
  speeches : Option (List Record)
  deriving DecidableEq, Repr

/-- `speeches = [] if output_fpath else None` (process.py line 124).
`output_given` embeds `output_fpath` being supplied (truthy). -/
def initState (output_given : Bool) : RunState :=
  { outLines := [], speeches := if output_given then some [] else none }

/-- Emitting one record (process.py lines 178-182), inside iteration `i`
of the loop over input files.  With an output destination, the file is
opened with `mode="w" if i == 0 else "a"`, so a write during the first
file replaces the whole file with this one line, and later writes append.
Without a destination the code runs `speeches.append(clean_data)`, which
raises `AttributeError` because `speeches` is `None` in that case. -/
def emitRecord (output_given : Bool) (i : Nat) (st : RunState) (r : Record) :
    Except PErr RunState :=
  if output_given then
    .ok { st with outLines := if i = 0 then [r] else st.outLines ++ [r] }
  else
    match st.speeches with
    | some l => .ok { st with speeches := some (l ++ [r]) }
    | none => .error .attributeError

/-- Emit a file's records one by one, in order. -/
def emitAll (output_given : Bool) (i : Nat) :
    RunState → List Record → Except PErr RunState
  | st, [] => .ok st
  | st, r :: rs =>
    match emitRecord output_given i st r with
    | .error e => .error e
    | .ok st' => emitAll output_given i st' rs

/-- The `for i, path in enumerate(...)` loop of process.py lines 125-182:
`i` counts input files (including skipped ones). -/
def runFiles (legislator_data : String → Option Legislator)
    (remove_procedural restrict_to_gop_dem output_given : Bool) :
    Nat → RunState → List (String × SpeechFile) → Except PErr RunState
  | _, st, [] => .ok st
  | i, st, (path, f) :: rest =>
    match processFile legislator_data remove_procedural restrict_to_gop_dem path f with
    | .error e => .error e
    | .ok recs =>
      match emitAll output_given i st recs with
      | .error e => .error e
      | .ok st' =>
        runFiles legislator_data remove_procedural restrict_to_gop_dem output_given
          (i + 1) st' rest

/-- Embedding of `process_and_speech_data` (process.py lines 101-184).
The result carries the final destination-file contents and the function's
return value `speeches`.  (The code writes to the module-level `out_fpath`;
run as a script that is the same destination as `output_fpath`.) -/
def process_and_speech_data (legislator_data : String → Option Legislator)
    (input_paths : List (String × SpeechFile))
    (remove_procedural restrict_to_gop_dem output_given : Bool) :
    Except PErr RunState :=
  runFiles legislator_data remove_procedural restrict_to_gop_dem output_given
    0 (initState output_given) input_paths

/-- Modelled from the spec: remove only the first occurrence of the
pattern `p :: pat` (the spec's reading of the name strip); worker with
fuel, for comparison against `replaceAllAux`. -/
def replaceFirstAux (p : Char) (pat : List Char) : Nat → List Char → List Char
  | 0, _ => []
  | _ + 1, [] => []
  | fuel + 1, c :: cs =>
    if (p :: pat).isPrefixOf (c :: cs) then cs.drop pat.length
    else c :: replaceFirstAux p pat fuel cs

/-- Modelled from the spec: text normalization as the spec words it, with
only the *first* occurrence of the speaker name removed; compared with
`normalize` (the code) in claim C2. -/
def normalizeSpec (speaker text : String) : String :=
  match speaker.data with
  | [] => ⟨collapseWs (lstripDotSpace text.data)⟩
  | p :: pat => ⟨collapseWs (lstripDotSpace (replaceFirstAux p pat text.data.length text.data))⟩

/-- A one-term fixture used in witnesses. -/
def demoTerm : Term :=
  { start := "2015-01-01", end_ := "2016-12-31", state := "TX",
    party := some "Republican", caucus := none }

/-- Fixture: first of two terms sharing the boundary date 2000-12-31. -/
def cexT1 : Term :=
  { start := "2000-01-01", end_ := "2000-12-31", state := "TX",
    party := some "Republican", caucus := none }

/-- Fixture: second of two terms sharing the boundary date 2000-12-31. -/
def cexT2 : Term :=
  { start := "2000-12-31", end_ := "2001-12-31", state := "TX",
    party := some "Democrat", caucus := none }

/-- Fixture: first of two terms with overlapping interiors. -/
def cexU1 : Term :=
  { start := "2000-01-01", end_ := "2000-12-31", state := "TX",
    party := some "Republican", caucus := none }

/-- Fixture: second of two terms with overlapping interiors. -/
def cexU2 : Term :=
  { start := "2000-06-01", end_ := "2001-12-31", state := "CA",
    party := some "Democrat", caucus := none }

/-- Fixture: an Independent term caucusing with the Democrats. -/
def indepDemTerm : Term :=
  { start := "2015-01-01", end_ := "2016-12-31", state := "VT",
    party := some "Independent", caucus := some "Democrat" }

/-- Fixture: an Independent term with an Independent caucus. -/
def indepIndepTerm : Term :=
  { start := "2015-01-01", end_ := "2016-12-31", state := "VT",
    party := some "Independent", caucus := some "Independent" }

/-- Fixture: a legislator with the single term `demoTerm`. -/
def demoLegislator : Legislator :=
  { first_name := "John", last_name := "Smith", gender := "M",
    terms := [demoTerm] }

/-- Fixture: a legislator index containing only `demoLegislator`. -/
def demoIndex : String → Option Legislator :=
  fun s => if s = "S000001" then some demoLegislator else none

/-- Fixture: a qualifying speech item. -/
def demoItem1 : SpeechItem :=
  { kind := "speech", speaker := "Mr. SMITH", speaker_bioguide := "S000001",
    itemno := 1, text := "Mr. SMITH. Thank you, Madam Speaker." }

/-- Fixture: a second qualifying speech item in the same file. -/
def demoItem2 : SpeechItem :=
  { kind := "speech", speaker := "Mr. SMITH", speaker_bioguide := "S000001",
    itemno := 2, text := "Mr. SMITH. I yield back." }

/-- Fixture: a speech file with two qualifying items. -/
def demoFile : SpeechFile :=
  { id := "D1", title := "FLOOR STATEMENT",
    header := { year := 2015, month := "March", day := 3, chamber := "H" },
    content := [demoItem1, demoItem2] }

/-- Fixture: a speech file with a single qualifying item. -/
def demoFile1 : SpeechFile :=
  { id := "D2", title := "FLOOR STATEMENT",
    header := { year := 2015, month := "March", day := 3, chamber := "H" },
    content := [demoItem1] }

/-- The record the code emits for `demoItem1` of `demoFile`. -/
def demoRec1 : Record :=
  { id := "D1_1", source_file := "f1.json", title := "FLOOR STATEMENT",
    date := "2015-03-03", text := "Thank you, Madam Speaker.", chamber := "H",
    speaker_id := "S000001", party := some "Republican", first_name := "John",
    last_name := "Smith", gender := "M", state := "TX" }

/-- The record the code emits for `demoItem2` of `demoFile`. -/
def demoRec2 : Record :=
  { id := "D1_2", source_file := "f1.json", title := "FLOOR STATEMENT",
    date := "2015-03-03", text := "I yield back.", chamber := "H",
    speaker_id := "S000001", party := some "Republican", first_name := "John",
    last_name := "Smith", gender := "M", state := "TX" }

/-- The record the code emits for `demoItem1` of `demoFile1`. -/
def demoRec1b : Record :=
  { id := "D2_1", source_file := "f2.json", title := "FLOOR STATEMENT",
    date := "2015-03-03", text := "Thank you, Madam Speaker.", chamber := "H",
    speaker_id := "S000001", party := some "Republican", first_name := "John",
    last_name := "Smith", gender := "M", state := "TX" }

/-- Fixture for C8: a procedural-titled file whose header cannot yield a
well-formed 10-character date (three-digit year). -/
def badDateFile : SpeechFile :=
  { id := "D9", title := "ADJOURNMENT",
    header := { year := 999, month := "March", day := 3, chamber := "S" },
    content := [] }

theorem find?_eq_some_split {α : Type} {p : α → Bool} {l : List α} {a : α}
    (h : l.find? p = some a) :
    ∃ l₁ l₂, l = l₁ ++ a :: l₂ ∧ p a = true ∧ ∀ x ∈ l₁, p x = false := by
  induction l with
  | nil => simp [List.find?] at h
  | cons c cs ih =>
    by_cases hc : p c
    · rw [List.find?_cons_of_pos _ hc] at h
      obtain rfl : c = a := by injection h
      exact ⟨[], cs, rfl, hc, by simp⟩
    · rw [List.find?_cons_of_neg _ (by simpa using hc)] at h
      obtain ⟨l₁, l₂, rfl, ha, hall⟩ := ih h
      refine ⟨c :: l₁, l₂, rfl, ha, ?_⟩
      intro x hx
      rcases List.mem_cons.mp hx with rfl | hx
      · simpa using hc
      · exact hall x hx

theorem find?_append_cons {α : Type} {p : α → Bool} {l₁ l₂ : List α} {a : α}
    (h₁ : ∀ x ∈ l₁, p x = false) (ha : p a = true) :
    (l₁ ++ a :: l₂).find? p = some a := by
  induction l₁ with
  | nil => simpa [List.find?_cons_of_pos] using List.find?_cons_of_pos l₂ ha
  | cons c cs ih =>
    have hc : p c = false := h₁ c (by simp)
    rw [List.cons_append, List.find?_cons_of_neg _ (by simp [hc])]
    exact ih fun x hx => h₁ x (by simp [hx])

/-- C1: for every legislator with a non-empty stored term list and every
session date string, `filter_terms` never fails; if no term's inclusive
interval contains the date it returns the last-stored term with a warning
(the same term for every such date); and if some term matches, it returns
the first match in reverse stored order (no later-stored term matches),
without warning. -/
theorem C1_filter_terms_spec (terms : List Term) (h : terms ≠ []) (date : String) :
    (∃ t w, filter_terms date terms = some (t, w)) ∧
    ((∀ t ∈ terms, termContains t date = false) →
      ∃ t, terms.getLast? = some t ∧ filter_terms date terms = some (t, true)) ∧
    ((∃ t ∈ terms, termContains t date = true) →
      ∃ l₁ t l₂, terms = l₁ ++ t :: l₂ ∧ termContains t date = true ∧
        (∀ u ∈ l₂, termContains u date = false) ∧
        filter_terms date terms = some (t, false)) := by
  have hlast := List.getLast?_eq_getLast_of_ne_nil h
  unfold filter_terms
  cases hf : terms.reverse.find? (fun t => termContains t date) with
  | none =>
    have hnone : ∀ t ∈ terms, termContains t date = false := by
      intro t ht
      have := List.find?_eq_none.mp hf t (List.mem_reverse.mpr ht)
      simpa using this
    refine ⟨⟨terms.getLast h, true, by rw [hlast]; rfl⟩, ?_, ?_⟩
    · intro _
      exact ⟨terms.getLast h, hlast, by rw [hlast]; rfl⟩
    · rintro ⟨t, ht, hc⟩
      rw [hnone t ht] at hc
      exact absurd hc (by simp)
  | some t =>
    obtain ⟨r₁, r₂, hrev, hpt, hr₁⟩ := find?_eq_some_split hf
    have hterms : terms = r₂.reverse ++ t :: r₁.reverse := by
      have := congrArg List.reverse hrev
      simpa [List.reverse_append] using this
    refine ⟨⟨t, false, rfl⟩, ?_, ?_⟩
    · intro hall
      have ht : t ∈ terms := List.mem_reverse.mp (List.mem_of_find?_eq_some hf)
      rw [hall t ht] at hpt
      exact absurd hpt (by simp)
    · intro _
      refine ⟨r₂.reverse, t, r₁.reverse, hterms, hpt, ?_, rfl⟩
      intro u hu
      have := hr₁ u (List.mem_reverse.mp hu)
      simpa using this

theorem C1_filter_terms_spec_witness :
    ∃ t, ([demoTerm] : List Term).getLast? = some t ∧
      filter_terms "1999-01-01" [demoTerm] = some (t, true) :=
  (C1_filter_terms_spec [demoTerm] (by decide) "1999-01-01").2.1 (by decide)

/-- C3 counterexample: the claim is false at explicit inputs.  On the
shared boundary "2000-12-31" of the overlapping `cexT1`/`cexT2`,
`filter_terms` returns `cexT2`, the term *latest* in stored order, not the
earliest; and "2000-08-15", strictly inside `cexU1`'s interval, resolves
to `cexU2`, not `cexU1`. -/
theorem C3_counterexample :
    (termContains cexT1 "2000-12-31" = true ∧ termContains cexT2 "2000-12-31" = true ∧
      filter_terms "2000-12-31" [cexT1, cexT2] = some (cexT2, false) ∧ cexT2 ≠ cexT1) ∧
    (strLe cexU1.start "2000-08-15" = true ∧ cexU1.start ≠ "2000-08-15" ∧
      strLe "2000-08-15" cexU1.end_ = true ∧ "2000-08-15" ≠ cexU1.end_ ∧
      filter_terms "2000-08-15" [cexU1, cexU2] = some (cexU2, false) ∧ cexU2 ≠ cexU1) := by
  decide

/-- C3 (amended): term resolution returns the *latest*-in-stored-order
term whose inclusive interval contains the date — the first one found
scanning from the end; in particular a date strictly within a term's
interval resolves to that term exactly when no later-stored term's
interval also contains it. -/
theorem C3_latest_match_wins (l₁ l₂ : List Term) (t : Term) (date : String)
    (ht : termContains t date = true)
    (hafter : ∀ u ∈ l₂, termContains u date = false) :
    filter_terms date (l₁ ++ t :: l₂) = some (t, false) := by
  unfold filter_terms
  have hrev : (l₁ ++ t :: l₂).reverse = l₂.reverse ++ t :: l₁.reverse := by
    simp [List.reverse_append]
  rw [hrev, find?_append_cons (fun u hu => hafter u (List.mem_reverse.mp hu)) ht]

theorem C3_latest_match_wins_witness :
    filter_terms "2000-08-15" [cexU1, cexU2] = some (cexU2, false) :=
  C3_latest_match_wins [cexU1] [] cexU2 "2000-08-15" (by decide) (by decide)

/-- C9: with a non-empty term list `filter_terms` always succeeds and
returns an element of the list; with an empty list it fails (`terms[-1]`
raises `IndexError`, embedded as `none`). -/
theorem C9_filter_terms_total :
    (∀ (terms : List Term) (date : String), terms ≠ [] →
      ∃ t w, filter_terms date terms = some (t, w) ∧ t ∈ terms) ∧
    (∀ date, filter_terms date ([] : List Term) = none) := by
  constructor
  · intro terms date h
    unfold filter_terms
    cases hf : terms.reverse.find? (fun t => termContains t date) with
    | none =>
      have hlast := List.getLast?_eq_getLast_of_ne_nil h
      exact ⟨terms.getLast h, true, by rw [hlast]; rfl, List.getLast_mem h⟩
    | some t =>
      exact ⟨t, false, rfl, List.mem_reverse.mp (List.mem_of_find?_eq_some hf)⟩
  · intro date
    rfl

theorem C9_filter_terms_total_witness :
    ∃ t w, filter_terms "2015-03-03" [demoTerm] = some (t, w) ∧ t ∈ [demoTerm] :=
  C9_filter_terms_total.1 [demoTerm] "2015-03-03" (by decide)

theorem wsCollapsed_cons_of_not_ws {c : Char} (hc : isPySpace c = false)
    {l : List Char} (hl : wsCollapsed l = true) : wsCollapsed (c :: l) = true := by
  cases l with
  | nil => simp [wsCollapsed, hc]
  | cons d rest => simp [wsCollapsed, hc] at hl ⊢; exact hl

theorem collapseWs_cons_of_not_ws {d : Char} (hd : isPySpace d = false)
    (rest : List Char) : ∃ t, collapseWs (d :: rest) = d :: t := by
  cases rest with
  | nil => exact ⟨[], by simp [collapseWs, hd]⟩
  | cons e rest' => exact ⟨collapseWs (e :: rest'), by simp [collapseWs, hd]⟩

theorem wsCollapsed_collapseWs (l : List Char) : wsCollapsed (collapseWs l) = true := by
  induction l with
  | nil => rfl
  | cons c cs ih =>
    cases cs with
    | nil =>
      cases hc : isPySpace c with
      | true => simp [collapseWs, hc, wsCollapsed]
      | false => simp [collapseWs, hc, wsCollapsed]
    | cons d rest =>
      by_cases hcd : (isPySpace c && isPySpace d) = true
      · rw [show collapseWs (c :: d :: rest) = collapseWs (d :: rest) by
          simp [collapseWs, hcd]]
        exact ih
      · have hstep : collapseWs (c :: d :: rest) =
            (if isPySpace c then ' ' else c) :: collapseWs (d :: rest) := by
          simp only [collapseWs, hcd, Bool.false_eq_true, if_false]
        rw [hstep]
        cases hc : isPySpace c with
        | true =>
          have hd : isPySpace d = false := by
            cases hdd : isPySpace d with
            | false => rfl
            | true => exact absurd (by simp [hc, hdd]) hcd
          obtain ⟨t, htl⟩ := collapseWs_cons_of_not_ws hd rest
          rw [show (if (true = true) then ' ' else c) = ' ' from rfl, htl]
          rw [htl] at ih
          simp [wsCollapsed, hd] at ih ⊢
          exact ih
        | false =>
          rw [if_neg (by simp [hc])]
          exact wsCollapsed_cons_of_not_ws hc ih

theorem collapseWs_of_wsCollapsed {l : List Char} (h : wsCollapsed l = true) :
    collapseWs l = l := by
  induction l with
  | nil => rfl
  | cons c cs ih =>
    cases cs with
    | nil =>
      cases hc : isPySpace c with
      | true =>
        have hce : c = ' ' := by
          simp [wsCollapsed, hc] at h
          exact h
        subst hce
        simp [collapseWs, hc]
      | false => simp [collapseWs, hc]
    | cons d rest =>
      simp only [wsCollapsed, Bool.and_eq_true] at h
      obtain ⟨hhead, htail⟩ := h
      have ihd := ih htail
      cases hc : isPySpace c with
      | true =>
        have hce : c = ' ' ∧ isPySpace d = false := by
          simp [hc] at hhead
          exact hhead
        obtain ⟨hsp, hd⟩ := hce
        subst hsp
        have hspace : isPySpace ' ' = true := by decide
        simp [collapseWs, hspace, hd, ihd]
      | false =>
        simp [collapseWs, hc, ihd]

theorem collapseWs_idem (l : List Char) : collapseWs (collapseWs l) = collapseWs l :=
  collapseWs_of_wsCollapsed (wsCollapsed_collapseWs l)

theorem replaceAllAux_congr (p : Char) (pat : List Char) :
    ∀ (f₁ f₂ : Nat) (l : List Char), l.length ≤ f₁ → l.length ≤ f₂ →
      replaceAllAux p pat f₁ l = replaceAllAux p pat f₂ l := by
  intro f₁
  induction f₁ with
  | zero =>
    intro f₂ l h₁ _
    have : l = [] := List.length_eq_zero.mp (Nat.le_zero.mp h₁)
    subst this
    cases f₂ <;> rfl
  | succ f ih =>
    intro f₂ l h₁ h₂
    cases l with
    | nil => cases f₂ <;> rfl
    | cons c cs =>
      cases f₂ with
      | zero => exact absurd h₂ (by simp)
      | succ f' =>
        simp only [replaceAllAux]
        by_cases hp : (p :: pat).isPrefixOf (c :: cs) = true
        · rw [if_pos hp, if_pos hp]
          have hlen : (cs.drop pat.length).length ≤ cs.length := by
            simp
          have hcs : cs.length ≤ f := by simpa using h₁
          have hcs' : cs.length ≤ f' := by simpa using h₂
          exact ih f' _ (Nat.le_trans hlen hcs) (Nat.le_trans hlen hcs')
        · rw [if_neg hp, if_neg hp]
          have hcs : cs.length ≤ f := by simpa using h₁
          have hcs' : cs.length ≤ f' := by simpa using h₂
          rw [ih f' cs hcs hcs']

theorem replaceAllAux_eq_self_of_not_contains (p : Char) (pat : List Char) :
    ∀ (f : Nat) (l : List Char), l.length ≤ f → ¬((p :: pat) <:+: l) →
      replaceAllAux p pat f l = l := by
  intro f
  induction f with
  | zero =>
    intro l h₁ _
    have : l = [] := List.length_eq_zero.mp (Nat.le_zero.mp h₁)
    subst this
    rfl
  | succ f ih =>
    intro l h₁ hni
    cases l with
    | nil => rfl
    | cons c cs =>
      simp only [replaceAllAux]
      have hp : (p :: pat).isPrefixOf (c :: cs) = false := by
        cases hpp : (p :: pat).isPrefixOf (c :: cs) with
        | false => rfl
        | true =>
          exact absurd (List.IsPrefix.isInfix (List.isPrefixOf_iff_prefix.mp hpp)) hni
      rw [if_neg (by simp [hp])]
      have hcs : cs.length ≤ f := by simpa using h₁
      rw [ih cs hcs fun hin => hni (List.infix_cons hin)]

theorem replaceAll_eq_self_of_not_contains (p : Char) (pat : List Char)
    (l : List Char) (hni : ¬((p :: pat) <:+: l)) : replaceAll (p :: pat) l = l :=
  replaceAllAux_eq_self_of_not_contains p pat l.length l (Nat.le_refl _) hni

theorem replaceAll_append_self (p : Char) (pat s : List Char) :
    replaceAll (p :: pat) ((p :: pat) ++ s) = replaceAll (p :: pat) s := by
  show replaceAllAux p pat ((p :: pat) ++ s).length ((p :: pat) ++ s) = _
  have hlen : ((p :: pat) ++ s).length = (pat ++ s).length + 1 := by simp
  rw [hlen]
  simp only [List.cons_append, replaceAllAux]
  rw [if_pos (List.isPrefixOf_iff_prefix.mpr ⟨s, by simp⟩)]
  rw [show List.drop pat.length (pat.append s) = s from List.drop_left pat s]
  exact replaceAllAux_congr p pat (pat ++ s).length s.length s (by simp) (Nat.le_refl _)

theorem processItems_sound (legis : String → Option Legislator) (rstr : Bool)
    (path : String) (f : SpeechFile) (date : String) :
    ∀ (items : List SpeechItem) (recs : List Record),
      processItems legis rstr path f date items = .ok recs →
      ∀ r ∈ recs, ∃ sp leg term w party, sp ∈ items ∧ itemQualifies sp = true ∧
        legis sp.speaker_bioguide = some leg ∧
        filter_terms date leg.terms = some (term, w) ∧
        resolveParty rstr term = some party ∧
        r = mkRecord path f date sp leg term party := by
  intro items
  induction items with
  | nil =>
    intro recs h r hr
    simp only [processItems, Except.ok.injEq] at h
    subst h
    simp at hr
  | cons sp rest ih =>
    intro recs h r hr
    simp only [processItems] at h
    by_cases hq : itemQualifies sp = true
    · rw [if_pos hq] at h
      cases hleg : legis sp.speaker_bioguide with
      | none =>
        simp only [hleg] at h
        exact Except.noConfusion h
      | some leg =>
        simp only [hleg] at h
        cases hft : filter_terms date leg.terms with
        | none =>
          simp only [hft] at h
          exact Except.noConfusion h
        | some tw =>
          obtain ⟨term, w⟩ := tw
          simp only [hft] at h
          cases hrp : resolveParty rstr term with
          | none =>
            simp only [hrp] at h
            obtain ⟨sp', leg', term', w', party', hm, h2, h3, h4, h5, h6⟩ :=
              ih recs h r hr
            exact ⟨sp', leg', term', w', party', List.mem_cons_of_mem _ hm,
              h2, h3, h4, h5, h6⟩
          | some party =>
            simp only [hrp] at h
            cases hrest : processItems legis rstr path f date rest with
            | error e =>
              simp only [hrest] at h
              exact Except.noConfusion h
            | ok recs' =>
              simp only [hrest, Except.ok.injEq] at h
              subst h
              rcases List.mem_cons.mp hr with rfl | hr'
              · exact ⟨sp, leg, term, w, party, List.mem_cons_self _ _,
                  hq, hleg, hft, hrp, rfl⟩
              · obtain ⟨sp', leg', term', w', party', hm, h2, h3, h4, h5, h6⟩ :=
                  ih recs' hrest r hr'
                exact ⟨sp', leg', term', w', party', List.mem_cons_of_mem _ hm,
                  h2, h3, h4, h5, h6⟩
    · rw [if_neg hq] at h
      obtain ⟨sp', leg', term', w', party', hm, h2, h3, h4, h5, h6⟩ := ih recs h r hr
      exact ⟨sp', leg', term', w', party', List.mem_cons_of_mem _ hm,
        h2, h3, h4, h5, h6⟩

/-- C2 counterexample: the claim that only the *first* occurrence of the
speaker name is removed is false at an explicit input.  `str.replace`
removes every occurrence: on speaker `"AB"` and text `"AB x AB"` the code
yields `"x "`, while the spec-modelled first-occurrence-only variant
(`normalizeSpec`) keeps the trailing `"AB"`. -/
theorem C2_counterexample :
    normalize "AB" "AB x AB" = "x " ∧
    normalizeSpec "AB" "AB x AB" = "x AB" ∧
    normalize "AB" "AB x AB" ≠ normalizeSpec "AB" "AB x AB" := by decide

/-- C2 (amended): for every emitted speech item the text is the raw text
with *every* left-to-right non-overlapping occurrence of the speaker's
display name removed (a later occurrence does not survive), then leading
periods and spaces stripped, then whitespace runs collapsed.  The second
conjunct shows an occurrence reached by the scan is always removed and
scanning continues behind it; the third that occurrence-free text is left
unchanged; the last, concretely, that a later occurrence is removed too. -/
theorem C2_normalization_removes_every_occurrence :
    (∀ legis rstr path f date items recs,
      processItems legis rstr path f date items = .ok recs →
      ∀ r ∈ recs, ∃ sp, sp ∈ items ∧ itemQualifies sp = true ∧
        r.text = normalize sp.speaker sp.text) ∧
    (∀ (p : Char) (pat s : List Char),
      replaceAll (p :: pat) ((p :: pat) ++ s) = replaceAll (p :: pat) s) ∧
    (∀ (p : Char) (pat s : List Char), ¬((p :: pat) <:+: s) →
      replaceAll (p :: pat) s = s) ∧
    normalize "AB" "AB x AB" = "x " := by
  refine ⟨?_, replaceAll_append_self, replaceAll_eq_self_of_not_contains, by decide⟩
  intro legis rstr path f date items recs h r hr
  obtain ⟨sp, leg, term, w, party, hm, h2, _, _, _, h6⟩ :=
    processItems_sound legis rstr path f date items recs h r hr
  exact ⟨sp, hm, h2, by rw [h6]; rfl⟩

theorem C2_normalization_removes_every_occurrence_witness :
    replaceAll ['Q'] ['a'] = ['a'] :=
  C2_normalization_removes_every_occurrence.2.2.1 'Q' [] ['a'] (by decide)

/-- C7 counterexample: normalization is not idempotent.  On the raw text
`"\t. x"` (speaker name absent from the text) one pass yields `" . x"`:
the leading tab is not stripped by `lstrip(". ")` but is collapsed to a
space afterwards; a second pass then strips the new leading `" . "`.
And with speaker `"ab"`, text `"aabb"`, removing the single occurrence
splices a *new* `"ab"` together, which a second pass removes. -/
theorem C7_counterexample :
    (normalize "Z" "\t. x" = " . x" ∧
      normalize "Z" (normalize "Z" "\t. x") = "x" ∧
      normalize "Z" (normalize "Z" "\t. x") ≠ normalize "Z" "\t. x") ∧
    (normalize "ab" "aabb" = "ab" ∧
      normalize "ab" (normalize "ab" "aabb") = "" ∧
      normalize "ab" (normalize "ab" "aabb") ≠ normalize "ab" "aabb") := by decide

/-- C7 (amended): normalization is idempotent on every normalized text
that does not begin with a space or a period and does not contain the
(non-empty) speaker display name. -/
theorem C7_normalize_conditionally_idempotent (p : Char) (pat : List Char) (s : String)
    (hni : ¬((p :: pat) <:+: (normalize ⟨p :: pat⟩ s).data))
    (hhead : ∀ c, (normalize ⟨p :: pat⟩ s).data.head? = some c → isDotSpace c = false) :
    normalize ⟨p :: pat⟩ (normalize ⟨p :: pat⟩ s) = normalize ⟨p :: pat⟩ s := by
  have h1 : replaceAll (p :: pat) (normalize ⟨p :: pat⟩ s).data =
      (normalize ⟨p :: pat⟩ s).data :=
    replaceAll_eq_self_of_not_contains p pat _ hni
  have h2 : lstripDotSpace (normalize ⟨p :: pat⟩ s).data =
      (normalize ⟨p :: pat⟩ s).data := by
    cases htd : (normalize ⟨p :: pat⟩ s).data with
    | nil => rfl
    | cons c cs =>
      have hc := hhead c (by rw [htd]; rfl)
      simp [lstripDotSpace, List.dropWhile, hc]
  have h3 : collapseWs (normalize ⟨p :: pat⟩ s).data = (normalize ⟨p :: pat⟩ s).data := by
    show collapseWs (collapseWs (lstripDotSpace (replaceAll (p :: pat) s.data))) = _
    exact collapseWs_idem _
  show (⟨collapseWs (lstripDotSpace (replaceAll (p :: pat)
    (normalize ⟨p :: pat⟩ s).data))⟩ : String) = normalize ⟨p :: pat⟩ s
  rw [h1, h2, h3]

theorem C7_normalize_conditionally_idempotent_witness :
    normalize ⟨['Q']⟩ (normalize ⟨['Q']⟩ "a b") = normalize ⟨['Q']⟩ "a b" :=
  C7_normalize_conditionally_idempotent 'Q' [] "a b" (by decide) (by decide)

/-- C4: with `restrict_to_gop_dem` the party is the term's party when that
is Republican or Democrat, else the term's caucus when that is Republican
or Democrat, else the item alone is dropped (the enclosing file's loop
continues with the next item); without the flag the party is used as-is.
Concretely, Independent/Democrat resolves to Democrat and
Independent/Independent is dropped. -/
theorem C4_party_resolution :
    (∀ t : Term, resolveParty false t = some t.party) ∧
    (∀ t : Term, isGopDem t.party = true → resolveParty true t = some t.party) ∧
    (∀ t : Term, isGopDem t.party = false → isGopDem t.caucus = true →
      resolveParty true t = some t.caucus) ∧
    (∀ t : Term, isGopDem t.party = false → isGopDem t.caucus = false →
      resolveParty true t = none) ∧
    resolveParty true indepDemTerm = some (some "Democrat") ∧
    resolveParty true indepIndepTerm = none ∧
    (∀ legis path f date sp rest leg term w,
      itemQualifies sp = true →
      legis sp.speaker_bioguide = some leg →
      filter_terms date leg.terms = some (term, w) →
      resolveParty true term = none →
      processItems legis true path f date (sp :: rest) =
        processItems legis true path f date rest) := by
  refine ⟨?_, ?_, ?_, ?_, by decide, by decide, ?_⟩
  · intro t; simp [resolveParty]
  · intro t hp; simp [resolveParty, hp]
  · intro t hp hc; simp [resolveParty, hp, hc]
  · intro t hp hc; simp [resolveParty, hp, hc]
  · intro legis path f date sp rest leg term w hq hleg hft hrp
    conv_lhs => rw [processItems]
    rw [if_pos hq]
    simp only [hleg, hft, hrp]

theorem C4_party_resolution_witness :
    resolveParty true demoTerm = some demoTerm.party :=
  C4_party_resolution.2.1 demoTerm (by decide)

/-- C8 counterexample: the claim that date validation precedes the
procedural-title check is false at an explicit input.  `badDateFile` has a
procedural title and a header whose date string cannot have 10 characters;
with `remove_procedural` set the code skips the file without any error,
whereas the claim says the run fails with `InvalidDateComponents`. -/
theorem C8_counterexample :
    mkDate badDateFile.header = .error .invalidDateComponents ∧
    PROCEDURAL_TITLES.contains badDateFile.title = true ∧
    processFile (fun _ => none) true false "p.json" badDateFile = .ok [] := by
  refine ⟨by decide, by decide, rfl⟩

/-- C8 (amended): per-file processing checks the procedural title *first*
(process.py line 128) and derives/validates the session date only
afterwards (lines 132-137); a malformed date fails the run exactly when
the file is not skipped by the procedural filter. -/
theorem C8_procedural_check_precedes_date (legis : String → Option Legislator)
    (restrict : Bool) (path : String) (f : SpeechFile) :
    (PROCEDURAL_TITLES.contains f.title = true →
      processFile legis true restrict path f = .ok []) ∧
    (∀ (rp : Bool) (e : PErr), mkDate f.header = .error e →
      (rp && PROCEDURAL_TITLES.contains f.title) = false →
      processFile legis rp restrict path f = .error e) := by
  constructor
  · intro ht
    rw [processFile,
      if_pos (show (true && PROCEDURAL_TITLES.contains f.title) = true from by
        rw [ht]; decide)]
  · intro rp e hdate hskip
    rw [processFile, if_neg (show ¬((rp && PROCEDURAL_TITLES.contains f.title) = true) from by
      rw [hskip]; exact Bool.false_ne_true), hdate]

theorem C8_procedural_check_precedes_date_witness :
    processFile (fun _ => none) false false "p.json" badDateFile =
      .error .invalidDateComponents :=
  (C8_procedural_check_precedes_date (fun _ => none) false "p.json" badDateFile).2
    false .invalidDateComponents (by decide) (by decide)

theorem processFile_ws (legis : String → Option Legislator) (rp rg : Bool)
    (path : String) (f : SpeechFile) (recs : List Record)
    (h : processFile legis rp rg path f = .ok recs) :
    ∀ r ∈ recs, wsCollapsed r.text.data = true := by
  intro r hr
  rw [processFile] at h
  by_cases hc : (rp && PROCEDURAL_TITLES.contains f.title) = true
  · rw [if_pos hc] at h
    injection h with h
    subst h
    simp at hr
  · rw [if_neg hc] at h
    cases hd : mkDate f.header with
    | error e =>
      simp only [hd] at h
      exact Except.noConfusion h
    | ok date =>
      simp only [hd] at h
      obtain ⟨sp, leg, term, w, party, _, _, _, _, _, h6⟩ :=
        processItems_sound legis rg path f date f.content recs h r hr
      rw [h6]
      exact wsCollapsed_collapseWs _

theorem emitRecord_ws (og : Bool) (i : Nat) (st : RunState) (r : Record)
    (st' : RunState) (h : emitRecord og i st r = .ok st')
    (h₁ : ∀ x ∈ st.outLines, wsCollapsed x.text.data = true)
    (h₂ : ∀ l, st.speeches = some l → ∀ x ∈ l, wsCollapsed x.text.data = true)
    (hr : wsCollapsed r.text.data = true) :
    (∀ x ∈ st'.outLines, wsCollapsed x.text.data = true) ∧
    (∀ l, st'.speeches = some l → ∀ x ∈ l, wsCollapsed x.text.data = true) := by
  cases og with
  | true =>
    rw [emitRecord, if_pos (rfl : (true : Bool) = true)] at h
    injection h with h
    subst h
    refine ⟨?_, h₂⟩
    intro x hx
    by_cases hi : i = 0
    · rw [if_pos hi] at hx
      simp at hx
      subst hx
      exact hr
    · rw [if_neg hi] at hx
      rcases List.mem_append.mp hx with hx' | hx'
      · exact h₁ x hx'
      · simp at hx'
        subst hx'
        exact hr
  | false =>
    rw [emitRecord, if_neg (by exact Bool.false_ne_true)] at h
    cases hsp : st.speeches with
    | none =>
      simp only [hsp] at h
      exact Except.noConfusion h
    | some l =>
      simp only [hsp] at h
      injection h with h
      subst h
      refine ⟨h₁, ?_⟩
      intro l' hl' x hx
      injection hl' with hl'
      subst hl'
      rcases List.mem_append.mp hx with hx' | hx'
      · exact h₂ l hsp x hx'
      · simp at hx'
        subst hx'
        exact hr

theorem emitAll_ws (og : Bool) (i : Nat) :
    ∀ (recs : List Record) (st st' : RunState),
      emitAll og i st recs = .ok st' →
      (∀ x ∈ st.outLines, wsCollapsed x.text.data = true) →
      (∀ l, st.speeches = some l → ∀ x ∈ l, wsCollapsed x.text.data = true) →
      (∀ x ∈ recs, wsCollapsed x.text.data = true) →
      (∀ x ∈ st'.outLines, wsCollapsed x.text.data = true) ∧
      (∀ l, st'.speeches = some l → ∀ x ∈ l, wsCollapsed x.text.data = true) := by
  intro recs
  induction recs with
  | nil =>
    intro st st' h h₁ h₂ _
    simp only [emitAll, Except.ok.injEq] at h
    subst h
    exact ⟨h₁, h₂⟩
  | cons r rs ih =>
    intro st st' h h₁ h₂ hrs
    simp only [emitAll] at h
    cases her : emitRecord og i st r with
    | error e =>
      simp only [her] at h
      exact Except.noConfusion h
    | ok st₁ =>
      simp only [her] at h
      obtain ⟨g₁, g₂⟩ := emitRecord_ws og i st r st₁ her h₁ h₂ (hrs r (by simp))
      exact ih st₁ st' h g₁ g₂ (fun x hx => hrs x (by simp [hx]))

theorem runFiles_ws (legis : String → Option Legislator) (rp rg og : Bool) :
    ∀ (files : List (String × SpeechFile)) (i : Nat) (st st' : RunState),
      runFiles legis rp rg og i st files = .ok st' →
      (∀ x ∈ st.outLines, wsCollapsed x.text.data = true) →
      (∀ l, st.speeches = some l → ∀ x ∈ l, wsCollapsed x.text.data = true) →
      (∀ x ∈ st'.outLines, wsCollapsed x.text.data = true) ∧
      (∀ l, st'.speeches = some l → ∀ x ∈ l, wsCollapsed x.text.data = true) := by
  intro files
  induction files with
  | nil =>
    intro i st st' h h₁ h₂
    simp only [runFiles, Except.ok.injEq] at h
    subst h
    exact ⟨h₁, h₂⟩
  | cons pf rest ih =>
    intro i st st' h h₁ h₂
    obtain ⟨path, f⟩ := pf
    simp only [runFiles] at h
    cases hpf : processFile legis rp rg path f with
    | error e =>
      simp only [hpf] at h
      exact Except.noConfusion h
    | ok recs =>
      simp only [hpf] at h
      cases hem : emitAll og i st recs with
      | error e =>
        simp only [hem] at h
        exact Except.noConfusion h
      | ok st₁ =>
        simp only [hem] at h
        obtain ⟨g₁, g₂⟩ := emitAll_ws og i recs st st₁ hem h₁ h₂
          (processFile_ws legis rp rg path f recs hpf)
        exact ih (i + 1) st₁ st' h g₁ g₂

/-- C10: every record a run emits — whether written to the destination
file or accumulated in `speeches` — has a text whose whitespace characters
are single spaces never adjacent to further whitespace (no tabs or
newlines survive the `re.sub`). -/
theorem C10_emitted_text_whitespace_invariant (legis : String → Option Legislator)
    (files : List (String × SpeechFile)) (rp rg og : Bool) (st : RunState)
    (h : process_and_speech_data legis files rp rg og = .ok st) :
    (∀ r ∈ st.outLines, wsCollapsed r.text.data = true) ∧
    (∀ l, st.speeches = some l → ∀ r ∈ l, wsCollapsed r.text.data = true) := by
  refine runFiles_ws legis rp rg og files 0 (initState og) st h ?_ ?_
  · intro x hx
    simp [initState] at hx
  · intro l hl x hx
    cases og with
    | true =>
      simp only [initState, if_pos (rfl : (true : Bool) = true)] at hl
      injection hl with hl
      subst hl
      simp at hx
    | false =>
      simp only [initState] at hl
      rw [if_neg (by exact Bool.false_ne_true)] at hl
      exact Option.noConfusion hl

theorem C10_emitted_text_whitespace_invariant_witness :
    wsCollapsed demoRec2.text.data = true :=
  (C10_emitted_text_whitespace_invariant demoIndex [("f1.json", demoFile)]
    false false true { outLines := [demoRec2], speeches := some [] }
    (by decide)).1 demoRec2 (by decide)

/-- C5 bug demonstration: the first input file emits two records, but
because the output file is opened with `mode="w" if i == 0` — `i` being
the *file* index, not the record index — every record written while
processing the first file truncates the destination.  After the run the
file holds only the first file's last record (later files append), not
all emitted records. -/
theorem C5_first_file_truncation_bug :
    processFile demoIndex false false "f1.json" demoFile = .ok [demoRec1, demoRec2] ∧
    process_and_speech_data demoIndex [("f1.json", demoFile)] false false true =
      .ok { outLines := [demoRec2], speeches := some [] } ∧
    process_and_speech_data demoIndex
        [("f1.json", demoFile), ("f2.json", demoFile1)] false false true =
      .ok { outLines := [demoRec2, demoRec1b], speeches := some [] } := by decide

/-- C6 bug demonstration: `speeches = [] if output_fpath else None`
(process.py line 124) inverts the documented behaviour.  Without an output
destination the first emitted record hits `None.append` and the run dies
with `AttributeError`; with a destination the function returns the empty
list `[]` instead of the documented `None`. -/
theorem C6_return_value_bug :
    process_and_speech_data demoIndex [("f1.json", demoFile1)] false false false =
      .error .attributeError ∧
    process_and_speech_data demoIndex [("f2.json", demoFile1)] false false true =
      .ok { outLines := [demoRec1b], speeches := some [] } := by decide

end CongRec
